import Mathlib

/-!
Verification development for the agent_workflow repository.

The Python sources are shallowly embedded: dictionaries become association
lists with Python lookup/update semantics, the recursive traversal closure
`execute` of src/orchestrator/orchestrator.py becomes a fuel-indexed
recursive function (the fuel models the interpreter recursion limit, whose
RecursionError is caught by the same per-branch handler as every other
exception), and the step executor `agent.run` plus the read-back of its
output file is abstracted by an oracle `out : String -> ctx -> Option String`
(`none` models a step that raises).
-/

set_option maxHeartbeats 1000000

/-- Python dictionary lookup over an association list (first matching key). -/
def dlookup {κ α : Type} [DecidableEq κ] : List (κ × α) → κ → Option α
  | [], _ => none
  | (a, v) :: m, k => if k = a then some v else dlookup m k

/-- Python dictionary assignment `m[k] = v`: replace the value at an existing
key in place, otherwise append the new binding at the end (insertion order). -/
def setKey {κ α : Type} [DecidableEq κ] : List (κ × α) → κ → α → List (κ × α)
  | [], k, v => [(k, v)]
  | (a, w) :: t, k, v => if k = a then (a, v) :: t else (a, w) :: setKey t k v

/-- Python dictionary merge `\x7b**d, **o\x7d` (src/orchestrator/orchestrator.py
line 38 and src/agents/base_agent.py line 22): start from `d` and assign every
binding of `o` over it, so the override wins on key collisions. -/
def pyMerge {κ α : Type} [DecidableEq κ] (d o : List (κ × α)) : List (κ × α) :=
  o.foldl (fun acc kv => setKey acc kv.1 kv.2) d

/-- One dispatch of a step by the orchestrator: the step name together with the
`previous_outputs` context that `execute` passes to `agent.run`. -/
structure TraceEntry where
  step : String
  ctx : List (String × String)
deriving DecidableEq

/-- Mutable state captured by the recursive closure `execute` for one input
artifact: the `output_map` dictionary, plus the list of dispatches performed
(in order), which records what `agent.run` was called with. -/
structure ExecState where
  outputs : List (String × String)
  trace : List TraceEntry
deriving DecidableEq

/-- The dictionary comprehension
`\x7bp: output_map[p] for p in previous_agents if p in output_map\x7d`
of src/orchestrator/orchestrator.py (line 121). -/
def prevOutputs (outputs : List (String × String)) (prev : List String) :
    List (String × String) :=
  prev.foldl
    (fun acc p =>
      match dlookup outputs p with
      | some v => setKey acc p v
      | none => acc)
    []

/-- Generalization of `prevOutputs` to an arbitrary starting accumulator, used
to reason about the dictionary-comprehension fold. -/
def prevOutputsAux (outputs : List (String × String))
    (acc : List (String × String)) (prev : List String) :
    List (String × String) :=
  prev.foldl
    (fun acc p =>
      match dlookup outputs p with
      | some v => setKey acc p v
      | none => acc)
    acc

/-- The recursive closure `execute(agent_name, input_file, previous_agents)` of
src/orchestrator/orchestrator.py (lines 87-150). `flow` is the flow.json
mapping; `out name ctx` abstracts running the agent and reading back its output
file (`none` = the step raised, caught by the per-branch `except`). A step name
that is not a key of `flow` is not a key of the `agents` dictionary either, so
`agents[agent_name]` raises KeyError before any dispatch; the handler catches
it and the branch is abandoned with the state unchanged. Fuel exhaustion
models the interpreter recursion limit: RecursionError is likewise caught by
the per-branch handler, returning the state unchanged. -/
def execute (flow : List (String × List String))
    (out : String → List (String × String) → Option String) :
    Nat → String → List String → ExecState → ExecState
  | 0, _, _, st => st
  | fuel + 1, name, prev, st =>
    match dlookup flow name with
    | none => st
    | some succs =>
      let ctx := prevOutputs st.outputs prev
      match out name ctx with
      | none => { st with trace := st.trace ++ [⟨name, ctx⟩] }
      | some o =>
        succs.foldl
          (fun s nxt => execute flow out fuel nxt (prev ++ [name]) s)
          { outputs := setKey st.outputs name o,
            trace := st.trace ++ [⟨name, ctx⟩] }

/-- Specification-side traversal trace: one entry per path from `name`, in
depth-first order, carrying as context exactly the outputs accumulated along
that path (`acc`), in completion order. The code-side `execute` is proved to
produce precisely this trace on acyclic graphs. -/
def specTrace (flow : List (String × List String))
    (out : String → List (String × String) → Option String) :
    Nat → List (String × String) → String → List TraceEntry
  | 0, _, _ => []
  | fuel + 1, acc, name =>
    match dlookup flow name with
    | none => []
    | some succs =>
      ⟨name, acc⟩ ::
        match out name acc with
        | none => []
        | some o => succs.flatMap (specTrace flow out fuel (acc ++ [(name, o)]))

/-- Root set in the sense of the specification: the steps never referenced as
any other step's successor (no incoming edge). The code computes no such set;
this definition follows the words of the spec so the two can be compared. -/
def specNoIncomingSteps (flow : List (String × List String)) : List String :=
  (flow.map Prod.fst).filter (fun k => ! flow.any (fun pr => pr.2.contains k))

/-- The root selection `initial_agent = list(flow.keys())[0]` of
src/orchestrator/orchestrator.py (line 46); `none` models the IndexError on an
empty flow. -/
def initial_agent (flow : List (String × List String)) : Option String :=
  flow.head?.map Prod.fst

/-- One traversal for one input artifact: `output_map = \x7b\x7d` then
`execute(initial_agent, file_path)` (src/orchestrator/orchestrator.py
lines 84 and 157). -/
def runArtifact (flow : List (String × List String))
    (out : String → List (String × String) → Option String)
    (fuel : Nat) (root : String) : ExecState :=
  execute flow out fuel root [] ⟨[], []⟩

/-- The per-artifact driving loop (src/orchestrator/orchestrator.py lines
67-157): each input artifact gets a fresh `output_map` and an independent
traversal; `outa a` is the step oracle as seen while processing artifact `a`. -/
def runAll {A : Type} [DecidableEq A] (flow : List (String × List String))
    (outa : A → String → List (String × String) → Option String)
    (fuel : Nat) (root : String) (arts : List A) : List (A × ExecState) :=
  arts.map (fun a => (a, runArtifact flow (outa a) fuel root))

/-- Acyclicity witnessed by a rank function strictly increasing along every
edge of the flow graph. -/
def edgeRank (flow : List (String × List String)) (rank : String → Nat) : Prop :=
  ∀ pr ∈ flow, ∀ b ∈ pr.2, rank pr.1 < rank b

/-! Step executor: `extract_code_block` of src/agents/agent.py (lines 56-69).
The regular expression search
`re.search(r"BBB(?:\w+)?\n(.*?)BBB", text, re.DOTALL)` (with BBB standing for
a run of three backticks) is embedded directly: try every start position left
to right; at a position, three backticks must be followed by a maximal run of
word characters, then a newline, then the lazily matched payload up to the
earliest next run of three backticks. The class `\w` of Python pattern strings
is Unicode-aware: its membership table (all Unicode letters and numerics plus
the underscore) is a Unicode database table external to the program, so it is
passed to the engine as a parameter `w : Char → Bool`; the theorems assume of
`w` only what holds of that table, namely that the newline character is not a
word character, and therefore apply to the program at the real table. -/

/-- The backtick character. -/
def tick : Char := Char.ofNat 96

/-- Tests whether the text begins with three backticks. -/
def startsWithTicks (s : List Char) : Bool :=
  match s with
  | a :: b :: c :: _ => a == tick && b == tick && c == tick
  | _ => false

/-- Lazy search for the earliest run of three backticks: returns the characters
before it and the characters after it, or `none` when the text contains no such
run (so the regex match at this start position fails). -/
def splitTicks : List Char → Option (List Char × List Char)
  | [] => none
  | c :: cs =>
    if startsWithTicks (c :: cs) then some ([], (c :: cs).drop 3)
    else
      match splitTicks cs with
      | some (p, r) => some (c :: p, r)
      | none => none

/-- Attempts the fenced-block pattern at one start position: three backticks,
an optional run of word characters (the language tag, per the `\w` table `w`),
a newline, then the lazily captured payload up to the next three backticks. -/
def matchFenceAt (w : Char → Bool) (s : List Char) : Option (List Char) :=
  match s with
  | a :: b :: c :: rest =>
    if a == tick && b == tick && c == tick then
      match rest.dropWhile w with
      | d :: body => if d == '\n' then (splitTicks body).map Prod.fst else none
      | [] => none
    else none
  | _ => none

/-- The `re.search` loop: try the pattern at every start position, left to
right, returning the first captured payload. -/
def searchFence (w : Char → Bool) : List Char → Option (List Char)
  | [] => none
  | c :: cs =>
    match matchFenceAt w (c :: cs) with
    | some payload => some payload
    | none => searchFence w cs

/-- Whitespace in the sense of Python `str.strip()`, that is `str.isspace()`:
the full table is finite (the ASCII whitespace, the separator control
characters, next line, no-break space, ogham space mark, the en-quad family,
the line and paragraph separators, narrow no-break space, medium mathematical
space and ideographic space), embedded here in full. -/
def pySpaceChars : List Char :=
  ['\t', '\n', '\x0b', '\x0c', '\r', '\x1c', '\x1d', '\x1e', '\x1f',
   ' ', '\x85', '\xa0', '\u1680', '\u2000', '\u2001', '\u2002', '\u2003',
   '\u2004', '\u2005', '\u2006', '\u2007', '\u2008', '\u2009', '\u200a',
   '\u2028', '\u2029', '\u202f', '\u205f', '\u3000']

def isPySpace (c : Char) : Bool := pySpaceChars.contains c

/-- Python `str.strip()`: remove leading and trailing whitespace. -/
def pyStrip (s : List Char) : List Char :=
  ((s.dropWhile isPySpace).reverse.dropWhile isPySpace).reverse

/-- The method `extract_code_block` of src/agents/agent.py, parametrized by
the `\w` membership table `w`: search for the fenced block and strip the
captured payload; `none` models the raised `ValueError` when no match is
found (there is no fallback to the raw text). -/
def extract_code_block (w : Char → Bool) (text : String) : Option String :=
  (searchFence w text.data).map (fun p => String.mk (pyStrip p))

/-- Tests whether the text contains a run of three backticks anywhere. -/
def hasTicks : List Char → Bool
  | [] => false
  | c :: cs => startsWithTicks (c :: cs) || hasTicks cs

/-- Specification-side notion of containing a fenced block (relative to the
word-character table `w`): the text decomposes around three backticks, a
language tag of word characters, a newline, a payload and three closing
backticks. -/
def containsFence (w : Char → Bool) (text : List Char) : Prop :=
  ∃ pre lang payload post : List Char,
    lang.all w = true ∧
    text = pre ++ tick :: tick :: tick ::
      (lang ++ '\n' :: (payload ++ tick :: tick :: tick :: post))

/-- The last path component: `Path(p).name` (characters after the last slash). -/
def pyName (s : List Char) : List Char :=
  (s.reverse.takeWhile (fun c => c != '/')).reverse

/-- Python `Path(p).stem`: the last component without its final suffix; the
suffix is the part from the last dot on, but only when that dot is neither the
first nor the last character of the component. -/
def pyStem (path : String) : String :=
  let name := pyName path.data
  match name.reverse.findIdx? (fun c => c == '.') with
  | none => String.mk name
  | some j =>
    if j = 0 ∨ j = name.length - 1 then String.mk name
    else String.mk (name.take (name.length - 1 - j))

/-- The method `get_output_file_name` of src/agents/agent.py (lines 71-88):
explicit `output_file` if configured, else the input stem with
`output_file_suffix` appended, else the agent name with extension `.txt`.
Settings values are taken as strings, which is what the code stores there. -/
def get_output_file_name (name : String) (config : List (String × String))
    (input_path : String) : String :=
  match dlookup config "output_file" with
  | some v => v
  | none =>
    match dlookup config "output_file_suffix" with
    | some sfx => pyStem input_path ++ sfx
    | none => name ++ ".txt"

/-! Configuration values and the ConfigLoader singleton
(src/config/config_loader.py). -/

/-- JSON-like configuration value. -/
inductive Val : Type where
  | s (x : String)
  | n (x : Int)
  | b (x : Bool)
  | d (entries : List (String × Val))

/-- Result of reading one file from storage. -/
inductive FileResult : Type where
  | missing
  | malformed (raw : String)
  | parsed (v : Val)

/-- Errors raised by `ConfigLoader._load_config_file`. -/
inductive LoadError : Type where
  | fileNotFound (path : String)
  | jsonDecodeError (path : String)

/-- The dictionary of paths handed to `ConfigLoader`. -/
structure ConfigPaths where
  default_config : String
  agent_config : String
  flow_config : String

/-- The `default_paths` dictionary of `ConfigLoader._load_configs`. -/
def default_paths : ConfigPaths :=
  ⟨"config/default_config.json", "config/agent_config.json", "config/flow.json"⟩

/-- The three configuration structures held by a loaded ConfigLoader. -/
structure ConfigData where
  default_config : Val
  agent_config : Val
  flow_config : Val

/-- The method `_load_config_file` of src/config/config_loader.py: missing file
raises FileNotFoundError, unparseable content raises json.JSONDecodeError. -/
def load_config_file (fs : String → FileResult) (path : String) :
    Except LoadError Val :=
  match fs path with
  | .missing => .error (.fileNotFound path)
  | .malformed _ => .error (.jsonDecodeError path)
  | .parsed v => .ok v

/-- The method `_load_configs`: `config_paths or default_paths`, then the three
files are read in order, stopping at the first error. The second component
lists the file reads performed. -/
def load_configs (fs : String → FileResult) (config_paths : Option ConfigPaths) :
    Except LoadError ConfigData × List String :=
  let eff := config_paths.getD default_paths
  match load_config_file fs eff.default_config with
  | .error e => (.error e, [eff.default_config])
  | .ok d =>
    match load_config_file fs eff.agent_config with
    | .error e => (.error e, [eff.default_config, eff.agent_config])
    | .ok a =>
      match load_config_file fs eff.flow_config with
      | .error e =>
          (.error e, [eff.default_config, eff.agent_config, eff.flow_config])
      | .ok f =>
          (.ok ⟨d, a, f⟩,
           [eff.default_config, eff.agent_config, eff.flow_config])

/-- A ConfigLoader instance: either fully loaded, or allocated but left without
configuration attributes because `_load_configs` raised inside `__new__`. -/
inductive CLInst : Type where
  | loadFailed
  | loaded (cfg : ConfigData)

/-- The method `ConfigLoader.__new__` (src/config/config_loader.py lines
11-21): when `cls._instance` is already set it is returned unchanged with no
file reads; otherwise a new instance is allocated, stored in `cls._instance`,
and `_load_configs` runs (note the instance stays cached even when loading
raises). Returns (result, new cached instance, file reads performed). -/
def ConfigLoader_new (fs : String → FileResult) (inst : Option CLInst)
    (config_paths : Option ConfigPaths) :
    Except LoadError CLInst × Option CLInst × List String :=
  match inst with
  | some i => (.ok i, some i, [])
  | none =>
    match load_configs fs config_paths with
    | (.ok cfg, reads) => (.ok (.loaded cfg), some (.loaded cfg), reads)
    | (.error e, reads) => (.error e, some .loadFailed, reads)

/-! Agent construction (src/agents/agent.py lines 8-20,
src/agents/base_agent.py lines 6-25) and the orchestrator start-up
(src/orchestrator/orchestrator.py lines 29-48). -/

/-- Python exceptions relevant to start-up. -/
inductive PyError : Type where
  | attributeError (attr : String)
  | indexError
deriving DecidableEq

/-- The three configuration dictionaries as held by a ConfigLoader object. -/
structure LoaderData where
  default_config : List (String × Val)
  agent_config : List (String × Val)
  flow_config : List (String × Val)

/-- The runtime value bound to the `config_loader` parameter of
`BaseAgent.__init__`: either a plain settings dictionary (what
`run_orchestration` actually passes as `config`) or a ConfigLoader instance
(what the method body expects). -/
inductive ConfigParam : Type where
  | dict (entries : List (String × Val))
  | loader (data : LoaderData)

/-- Attributes set by a successful `BaseAgent.__init__`. -/
structure BaseAgentState where
  name : String
  default_config : List (String × Val)
  agent_config : List (String × Val)
  flow_config : List (String × Val)
  config : List (String × Val)

/-- Python `m.get(k, \x7b\x7d)` where the value is used as a dictionary. -/
def getDict (m : List (String × Val)) (k : String) : List (String × Val) :=
  match dlookup m k with
  | some (.d e) => e
  | _ => []

/-- The method `BaseAgent.__init__` (src/agents/base_agent.py lines 6-25): it
calls `config_loader.get_default_config()`; a plain dictionary has no such
attribute, so the call raises AttributeError. On a real ConfigLoader it loads
the three configurations and merges the default agent block with the
agent-specific overrides. -/
def BaseAgent_init (name : String) (config_loader : ConfigParam) :
    Except PyError BaseAgentState :=
  match config_loader with
  | .dict _ => .error (.attributeError "get_default_config")
  | .loader ld =>
    .ok { name := name
          default_config := ld.default_config
          agent_config := getDict ld.agent_config name
          flow_config := ld.flow_config
          config := pyMerge (getDict ld.default_config "default_agent_config")
                      (getDict ld.agent_config name) }

/-- The method `Agent.__init__` (src/agents/agent.py lines 8-20): it forwards
`name` and `config` to `BaseAgent.__init__` as its `config_loader` parameter
(the later LLM service construction is never reached when that raises). -/
def Agent_init (name : String) (config : ConfigParam) :
    Except PyError BaseAgentState :=
  BaseAgent_init name config

/-- The agent-initialization loop of `run_orchestration`
(src/orchestrator/orchestrator.py lines 29-39): for each flow key, merge the
default agent block with the agent-specific overrides and construct
`Agent(agent_name, config=merged_config)`; the first exception propagates. -/
def initAgents (flow : List (String × List String))
    (default_config agent_configs : List (String × Val)) :
    Except PyError (List (String × BaseAgentState)) :=
  match flow with
  | [] => .ok []
  | (agent_name, _) :: rest =>
    match Agent_init agent_name
        (.dict (pyMerge (getDict default_config "default_agent_config")
                  (getDict agent_configs agent_name))) with
    | .error e => .error e
    | .ok st =>
      match initAgents rest default_config agent_configs with
      | .error e => .error e
      | .ok l => .ok ((agent_name, st) :: l)

/-- The function `run_orchestration` (src/orchestrator/orchestrator.py): after
loading the configurations it initializes every agent, picks the first flow
key as the initial agent, and runs one traversal per input artifact. Any
exception in the initialization loop is uncaught and aborts the run before any
artifact is processed. -/
def run_orchestration (flow : List (String × List String))
    (default_config agent_configs : List (String × Val))
    (outa : String → String → List (String × String) → Option String)
    (fuel : Nat) (arts : List String) :
    Except PyError (List (String × ExecState)) :=
  match initAgents flow default_config agent_configs with
  | .error e => .error e
  | .ok _ =>
    match flow with
    | [] => .error .indexError
    | (k, _) :: _ => .ok (runAll flow outa fuel k arts)

/-! Concrete fixtures used by witnesses and counterexamples. -/

/-- Diamond-shaped acyclic flow graph with the single no-incoming-edge step
`a`: step `d` is reachable along the two paths a-b-d and a-c-d. -/
def dflow : List (String × List String) :=
  [("a", ["b", "c"]), ("b", ["d"]), ("c", ["d"]), ("d", [])]

/-- Step oracle where every step succeeds and outputs its own name. -/
def doutput : String → List (String × String) → Option String :=
  fun n _ => some n

/-- Rank function witnessing that `dflow` is acyclic. -/
def drank : String → Nat :=
  fun n => if n = "a" then 0 else if n = "d" then 2 else 1

/-- Two-node line flow used as a witness instance. -/
def lineFlow : List (String × List String) := [("a", ["b"]), ("b", [])]

/-- Rank function witnessing that `lineFlow` is acyclic. -/
def lineRank : String → Nat := fun n => if n = "a" then 0 else 1

/-- Flow whose unique no-incoming-edge step `a` is not its first key. -/
def flow5 : List (String × List String) := [("b", []), ("a", ["b"])]

/-- Flow with two no-incoming-edge steps `a` and `c`. -/
def flowM : List (String × List String) :=
  [("a", ["b"]), ("c", ["b"]), ("b", [])]

/-- Flow referencing the successor name `zzz` that exists nowhere as a key. -/
def flow8 : List (String × List String) := [("a", ["zzz"])]

/-- Cyclic flow graph: step `a` lists itself as its successor. -/
def cycFlow : List (String × List String) := [("a", ["a"])]

/-- Flow for the failure-isolation scenario: parent `p` fans out to `s1`, `f`
and `s2` in that order, and `f` has the child `c`. -/
def c3flow : List (String × List String) :=
  [("p", ["s1", "f", "s2"]), ("s1", []), ("f", ["c"]), ("c", []), ("s2", [])]

/-- Rank function witnessing that `c3flow` is acyclic. -/
def c3rank : String → Nat :=
  fun n => if n = "p" then 0 else if n = "c" then 2 else 1

/-- Per-artifact step oracle: for artifact `0` the step `f` raises, every other
(artifact, step) pair succeeds and outputs the step name. -/
def c3outa : Nat → String → List (String × String) → Option String :=
  fun i n _ => if i = 0 ∧ n = "f" then none else some n

/-- Storage where every path holds a parseable file. -/
def fsOkAll : String → FileResult := fun _ => .parsed (.s "v")

/-- Storage where every path is missing. -/
def fsMissingAll : String → FileResult := fun _ => .missing

/-- Default settings fixture for the merge witness. -/
def d7 : List (String × String) := [("temperature", "0.1"), ("model", "gpt-4")]

/-- Override settings fixture for the merge witness. -/
def o7 : List (String × String) := [("model", "gemini")]

/-- Concrete word-character table used by the extraction witness: a fragment
of the `\w` table of Python containing the ASCII word characters and the
non-ASCII letter `é`, to exercise a Unicode-tagged fence. -/
def wordE : Char → Bool := fun c => c.isAlphanum || c == '_' || c == 'é'

/-! Dictionary lemmas. -/

theorem dlookup_setKey_self {κ α : Type} [DecidableEq κ]
    (m : List (κ × α)) (k : κ) (v : α) :
    dlookup (setKey m k v) k = some v := by
  induction m with
  | nil => simp [setKey, dlookup]
  | cons hd t ih =>
    obtain ⟨a, w⟩ := hd
    by_cases h : k = a
    · simp [setKey, h, dlookup]
    · simp [setKey, h, dlookup, ih]

theorem dlookup_setKey_ne {κ α : Type} [DecidableEq κ]
    (m : List (κ × α)) (k : κ) (v : α) (q : κ) (h : q ≠ k) :
    dlookup (setKey m k v) q = dlookup m q := by
  induction m with
  | nil => simp [setKey, dlookup, h]
  | cons hd t ih =>
    obtain ⟨a, w⟩ := hd
    by_cases hka : k = a
    · subst hka
      simp [setKey, dlookup, h]
    · by_cases hqa : q = a
      · simp [setKey, hka, dlookup, hqa]
      · simp [setKey, hka, dlookup, hqa, ih]

theorem dlookup_eq_none_of_not_mem {κ α : Type} [DecidableEq κ]
    (m : List (κ × α)) (k : κ) (h : k ∉ m.map Prod.fst) :
    dlookup m k = none := by
  induction m with
  | nil => rfl
  | cons hd t ih =>
    obtain ⟨a, w⟩ := hd
    simp only [List.map_cons, List.mem_cons] at h
    push_neg at h
    simp [dlookup, h.1, ih h.2]

theorem dlookup_mem {κ α : Type} [DecidableEq κ]
    {m : List (κ × α)} {k : κ} {v : α} (h : dlookup m k = some v) :
    (k, v) ∈ m := by
  induction m with
  | nil => simp [dlookup] at h
  | cons hd t ih =>
    obtain ⟨a, w⟩ := hd
    by_cases hka : k = a
    · subst hka
      simp [dlookup] at h
      simp [h]
    · simp [dlookup, hka] at h
      exact List.mem_cons_of_mem _ (ih h)

theorem setKey_of_not_mem {κ α : Type} [DecidableEq κ]
    (m : List (κ × α)) (k : κ) (v : α) (h : k ∉ m.map Prod.fst) :
    setKey m k v = m ++ [(k, v)] := by
  induction m with
  | nil => rfl
  | cons hd t ih =>
    obtain ⟨a, w⟩ := hd
    simp only [List.map_cons, List.mem_cons] at h
    push_neg at h
    simp [setKey, h.1, ih h.2]

theorem mem_keys_setKey {κ α : Type} [DecidableEq κ]
    (m : List (κ × α)) (k : κ) (v : α) (q : κ)
    (h : q ∈ (setKey m k v).map Prod.fst) :
    q ∈ m.map Prod.fst ∨ q = k := by
  induction m with
  | nil =>
    simp [setKey] at h
    exact Or.inr h
  | cons hd t ih =>
    obtain ⟨a, w⟩ := hd
    by_cases hka : k = a
    · subst hka
      simp [setKey] at h
      rcases h with h | h
      · exact Or.inr h
      · exact Or.inl (by simp; exact Or.inr h)
    · simp only [setKey, if_neg hka, List.map_cons, List.mem_cons] at h
      rcases h with h | h
      · exact Or.inl (by simp [h])
      · rcases ih h with h2 | h2
        · exact Or.inl (by simp [h2])
        · exact Or.inr h2

theorem dlookup_pyMerge_of_none {κ α : Type} [DecidableEq κ]
    (d o : List (κ × α)) (k : κ) (h : dlookup o k = none) :
    dlookup (pyMerge d o) k = dlookup d k := by
  induction o generalizing d with
  | nil => rfl
  | cons hd t ih =>
    obtain ⟨a, v⟩ := hd
    have hka : ¬k = a := by
      intro e
      simp [dlookup, e] at h
    have ht : dlookup t k = none := by
      simpa [dlookup, hka] using h
    have : pyMerge d ((a, v) :: t) = pyMerge (setKey d a v) t := rfl
    rw [this, ih _ ht, dlookup_setKey_ne _ _ _ _ hka]

theorem dlookup_pyMerge_of_some {κ α : Type} [DecidableEq κ]
    (d o : List (κ × α)) (k : κ) (v : α)
    (hnd : (o.map Prod.fst).Nodup) (h : dlookup o k = some v) :
    dlookup (pyMerge d o) k = some v := by
  induction o generalizing d with
  | nil => simp [dlookup] at h
  | cons hd t ih =>
    obtain ⟨a, w⟩ := hd
    simp only [List.map_cons, List.nodup_cons] at hnd
    have hstep : pyMerge d ((a, w) :: t) = pyMerge (setKey d a w) t := rfl
    by_cases hka : k = a
    · subst hka
      have hw : w = v := by simpa [dlookup] using h
      subst hw
      have ht : dlookup t k = none := dlookup_eq_none_of_not_mem _ _ hnd.1
      rw [hstep, dlookup_pyMerge_of_none _ _ _ ht, dlookup_setKey_self]
    · have ht : dlookup t k = some v := by simpa [dlookup, hka] using h
      rw [hstep]
      exact ih (setKey d a w) hnd.2 ht

/-! Lemmas about the previous-outputs dictionary comprehension. -/

theorem prevOutputs_eq_aux (m : List (String × String)) (prev : List String) :
    prevOutputs m prev = prevOutputsAux m [] prev := rfl

theorem prevOutputsAux_cons (m : List (String × String))
    (acc : List (String × String)) (p : String) (t : List String) :
    prevOutputsAux m acc (p :: t) =
      prevOutputsAux m
        (match dlookup m p with
          | some v => setKey acc p v
          | none => acc) t := rfl

theorem prevOutputsAux_congr (m1 m2 : List (String × String))
    (prev : List String) (h : ∀ p ∈ prev, dlookup m1 p = dlookup m2 p) :
    ∀ acc, prevOutputsAux m1 acc prev = prevOutputsAux m2 acc prev := by
  induction prev with
  | nil => intro acc; rfl
  | cons p t ih =>
    intro acc
    have hp : dlookup m1 p = dlookup m2 p := h p (by simp)
    have ht : ∀ q ∈ t, dlookup m1 q = dlookup m2 q := by
      intro q hq
      exact h q (by simp [hq])
    rw [prevOutputsAux_cons, prevOutputsAux_cons, hp]
    exact ih ht _

theorem prevOutputsAux_append (m : List (String × String))
    (acc : List (String × String)) (l : List String) (q : String) :
    prevOutputsAux m acc (l ++ [q]) =
      match dlookup m q with
      | some v => setKey (prevOutputsAux m acc l) q v
      | none => prevOutputsAux m acc l := by
  simp [prevOutputsAux, List.foldl_append]

theorem mem_keys_prevOutputsAux (m : List (String × String))
    (prev : List String) (k : String) :
    ∀ acc, k ∈ (prevOutputsAux m acc prev).map Prod.fst →
      k ∈ acc.map Prod.fst ∨ k ∈ prev := by
  induction prev with
  | nil => intro acc h; exact Or.inl h
  | cons p t ih =>
    intro acc h
    rw [prevOutputsAux_cons] at h
    have h2 := ih _ h
    rcases h2 with h2 | h2
    · cases hdp : dlookup m p with
      | none =>
        simp only [hdp] at h2
        exact Or.inl h2
      | some v =>
        simp only [hdp] at h2
        rcases mem_keys_setKey _ _ _ _ h2 with h3 | h3
        · exact Or.inl h3
        · exact Or.inr (by simp [h3])
    · exact Or.inr (by simp [h2])

theorem foldl_execute_fuel_zero (flow : List (String × List String))
    (out : String → List (String × String) → Option String)
    (prev : List String) (names : List String) :
    ∀ st : ExecState,
      names.foldl (fun s n => execute flow out 0 n prev s) st = st := by
  induction names with
  | nil => intro st; rfl
  | cons n t ih =>
    intro st
    show t.foldl _ (execute flow out 0 n prev st) = st
    rw [show execute flow out 0 n prev st = st from rfl]
    exact ih st

/-! Unfolding equations for the traversal. -/

theorem execute_zero (flow : List (String × List String))
    (out : String → List (String × String) → Option String)
    (name : String) (prev : List String) (st : ExecState) :
    execute flow out 0 name prev st = st := rfl

theorem execute_succ (flow : List (String × List String))
    (out : String → List (String × String) → Option String)
    (fuel : Nat) (name : String) (prev : List String) (st : ExecState) :
    execute flow out (fuel + 1) name prev st =
      match dlookup flow name with
      | none => st
      | some succs =>
        match out name (prevOutputs st.outputs prev) with
        | none =>
            { st with trace := st.trace ++ [⟨name, prevOutputs st.outputs prev⟩] }
        | some o =>
            succs.foldl
              (fun s nxt => execute flow out fuel nxt (prev ++ [name]) s)
              { outputs := setKey st.outputs name o,
                trace := st.trace ++ [⟨name, prevOutputs st.outputs prev⟩] } := rfl

theorem specTrace_zero (flow : List (String × List String))
    (out : String → List (String × String) → Option String)
    (acc : List (String × String)) (name : String) :
    specTrace flow out 0 acc name = [] := rfl

theorem specTrace_succ (flow : List (String × List String))
    (out : String → List (String × String) → Option String)
    (fuel : Nat) (acc : List (String × String)) (name : String) :
    specTrace flow out (fuel + 1) acc name =
      match dlookup flow name with
      | none => []
      | some succs =>
        ⟨name, acc⟩ ::
          match out name acc with
          | none => []
          | some o =>
              succs.flatMap (specTrace flow out fuel (acc ++ [(name, o)])) := rfl

theorem flatMap_const_nil {α β : Type} (l : List α) :
    l.flatMap (fun _ => ([] : List β)) = [] := by
  induction l with
  | nil => rfl
  | cons a t ih => simp [ih]

/-- Central traversal lemma: on a flow graph that is acyclic (witnessed by a
rank function increasing along edges), folding `execute` over a list of start
steps appends to the trace exactly the specification-side per-path enumeration
`specTrace`, and leaves every output entry whose key ranks strictly below all
start steps untouched. The hypotheses say that `acc` is the context of the
shared path `prev` and that every step of `prev` ranks below every start
step. -/
theorem execute_foldl_spec (flow : List (String × List String))
    (out : String → List (String × String) → Option String)
    (rank : String → Nat) (hrank : edgeRank flow rank) :
    ∀ (fuel : Nat) (names prev : List String) (st : ExecState)
      (acc : List (String × String)),
      prevOutputs st.outputs prev = acc →
      (∀ p ∈ prev, ∀ n ∈ names, rank p < rank n) →
      ((names.foldl (fun s n => execute flow out fuel n prev s) st).trace
          = st.trace ++ names.flatMap (specTrace flow out fuel acc)
       ∧ ∀ k, (∀ n ∈ names, rank k < rank n) →
          dlookup (names.foldl
              (fun s n => execute flow out fuel n prev s) st).outputs k
            = dlookup st.outputs k) := by
  intro fuel
  induction fuel with
  | zero =>
    intro names prev st acc h1 h2
    constructor
    · rw [foldl_execute_fuel_zero]
      have hs : specTrace flow out 0 acc = fun _ => [] := by
        funext n
        rfl
      rw [hs, flatMap_const_nil, List.append_nil]
    · intro k hk
      rw [foldl_execute_fuel_zero]
  | succ fuel ih =>
    intro names
    induction names with
    | nil =>
      intro prev st acc h1 h2
      exact ⟨by simp, fun k hk => rfl⟩
    | cons name rest ihn =>
      intro prev st acc h1 h2
      have hname_rank : ∀ p ∈ prev, rank p < rank name := by
        intro p hp
        exact h2 p hp name (by simp)
      have hrest : ∀ p ∈ prev, ∀ n ∈ rest, rank p < rank n := by
        intro p hp n hn
        exact h2 p hp n (by simp [hn])
      rw [List.foldl_cons]
      cases hdl : dlookup flow name with
      | none =>
        have hstep : execute flow out (fuel + 1) name prev st = st := by
          rw [execute_succ, hdl]
        have hspec : specTrace flow out (fuel + 1) acc name = [] := by
          rw [specTrace_succ, hdl]
        rw [hstep]
        obtain ⟨ta, tb⟩ := ihn prev st acc h1 hrest
        constructor
        · rw [ta, List.flatMap_cons, hspec, List.nil_append]
        · intro k hk
          exact tb k (fun n hn => hk n (by simp [hn]))
      | some succs =>
        have hsucc_rank : ∀ b ∈ succs, rank name < rank b :=
          hrank (name, succs) (dlookup_mem hdl)
        cases hout : out name acc with
        | none =>
          have hstep : execute flow out (fuel + 1) name prev st =
              { st with trace := st.trace ++ [⟨name, acc⟩] } := by
            rw [execute_succ, hdl, h1, hout]
          have hspec : specTrace flow out (fuel + 1) acc name = [⟨name, acc⟩] := by
            rw [specTrace_succ, hdl, hout]
          rw [hstep]
          obtain ⟨ta, tb⟩ :=
            ihn prev { st with trace := st.trace ++ [⟨name, acc⟩] } acc h1 hrest
          constructor
          · rw [ta, List.flatMap_cons, hspec]
            simp
          · intro k hk
            exact tb k (fun n hn => hk n (by simp [hn]))
        | some o =>
          have hneq : ∀ p ∈ prev, p ≠ name := by
            intro p hp e
            exact absurd (e ▸ hname_rank p hp) (lt_irrefl _)
          have hnotmem : name ∉ acc.map Prod.fst := by
            intro hmem
            rw [← h1, prevOutputs_eq_aux] at hmem
            rcases mem_keys_prevOutputsAux _ _ _ _ hmem with h3 | h3
            · simp at h3
            · exact absurd (hname_rank name h3) (lt_irrefl _)
          have hstep : execute flow out (fuel + 1) name prev st =
              succs.foldl
                (fun s nxt => execute flow out fuel nxt (prev ++ [name]) s)
                { outputs := setKey st.outputs name o,
                  trace := st.trace ++ [⟨name, acc⟩] } := by
            rw [execute_succ, hdl, h1, hout]
          have hspec : specTrace flow out (fuel + 1) acc name =
              ⟨name, acc⟩ ::
                succs.flatMap (specTrace flow out fuel (acc ++ [(name, o)])) := by
            rw [specTrace_succ, hdl, hout]
          set st2 : ExecState :=
            { outputs := setKey st.outputs name o,
              trace := st.trace ++ [⟨name, acc⟩] } with hst2
          have hI1 : prevOutputs st2.outputs (prev ++ [name]) =
              acc ++ [(name, o)] := by
            rw [prevOutputs_eq_aux, prevOutputsAux_append]
            have hself : dlookup st2.outputs name = some o :=
              dlookup_setKey_self _ _ _
            rw [hself]
            have hcongr : prevOutputsAux st2.outputs [] prev =
                prevOutputsAux st.outputs [] prev := by
              apply prevOutputsAux_congr
              intro p hp
              exact dlookup_setKey_ne _ _ _ _ (hneq p hp)
            rw [hcongr, ← prevOutputs_eq_aux, h1]
            exact setKey_of_not_mem _ _ _ hnotmem
          have hI2 : ∀ p ∈ prev ++ [name], ∀ n ∈ succs, rank p < rank n := by
            intro p hp n hn
            rcases List.mem_append.mp hp with hp2 | hp2
            · exact lt_trans (hname_rank p hp2) (hsucc_rank n hn)
            · have : p = name := by simpa using hp2
              exact this ▸ hsucc_rank n hn
          obtain ⟨ia, ib⟩ := ih succs (prev ++ [name]) st2 _ hI1 hI2
          set inner : ExecState :=
            succs.foldl
              (fun s nxt => execute flow out fuel nxt (prev ++ [name]) s) st2
            with hinner
          have hinner_prev : ∀ p ∈ prev,
              dlookup inner.outputs p = dlookup st.outputs p := by
            intro p hp
            have hlow : ∀ n ∈ succs, rank p < rank n := by
              intro n hn
              exact lt_trans (hname_rank p hp) (hsucc_rank n hn)
            rw [ib p hlow, hst2]
            exact dlookup_setKey_ne _ _ _ _ (hneq p hp)
          have hI1r : prevOutputs inner.outputs prev = acc := by
            rw [prevOutputs_eq_aux,
              prevOutputsAux_congr inner.outputs st.outputs prev hinner_prev,
              ← prevOutputs_eq_aux, h1]
          obtain ⟨ra, rb⟩ := ihn prev inner acc hI1r hrest
          rw [hstep]
          constructor
          · rw [ra, ia, List.flatMap_cons, hspec, hst2]
            simp
          · intro k hk
            have hk_name : rank k < rank name := hk name (by simp)
            have hk_succs : ∀ n ∈ succs, rank k < rank n := by
              intro n hn
              exact lt_trans hk_name (hsucc_rank n hn)
            have hk_ne : k ≠ name := by
              intro e
              exact absurd (e ▸ hk_name) (lt_irrefl _)
            rw [rb k (fun n hn => hk n (by simp [hn])), ib k hk_succs, hst2]
            exact dlookup_setKey_ne _ _ _ _ hk_ne

/-- The trace only ever grows: whatever a fold of `execute` does, the
dispatches already recorded stay in place, in order. -/
theorem foldl_execute_trace_extends (flow : List (String × List String))
    (out : String → List (String × String) → Option String) :
    ∀ (fuel : Nat) (names prev : List String) (st : ExecState),
      ∃ t, (names.foldl
          (fun s n => execute flow out fuel n prev s) st).trace
        = st.trace ++ t := by
  intro fuel
  induction fuel with
  | zero =>
    intro names prev st
    exact ⟨[], by rw [foldl_execute_fuel_zero]; simp⟩
  | succ fuel ih =>
    intro names
    induction names with
    | nil =>
      intro prev st
      exact ⟨[], by simp⟩
    | cons name rest ihn =>
      intro prev st
      rw [List.foldl_cons]
      have hone : ∃ t0, (execute flow out (fuel + 1) name prev st).trace
          = st.trace ++ t0 := by
        rw [execute_succ]
        cases hdl : dlookup flow name with
        | none => exact ⟨[], by simp⟩
        | some succs =>
          cases hout : out name (prevOutputs st.outputs prev) with
          | none => exact ⟨[⟨name, prevOutputs st.outputs prev⟩], rfl⟩
          | some o =>
            obtain ⟨t1, ht1⟩ := ih succs (prev ++ [name])
              { outputs := setKey st.outputs name o,
                trace := st.trace ++ [⟨name, prevOutputs st.outputs prev⟩] }
            exact ⟨[⟨name, prevOutputs st.outputs prev⟩] ++ t1,
              by rw [ht1]; simp⟩
      obtain ⟨t0, ht0⟩ := hone
      obtain ⟨t2, ht2⟩ := ihn prev (execute flow out (fuel + 1) name prev st)
      exact ⟨t0 ++ t2, by rw [ht2, ht0]; simp⟩

/-- Looking an artifact up in the batch result yields exactly the standalone
traversal of that artifact: the batch loop computes each entry independently. -/
theorem dlookup_runAll {A : Type} [DecidableEq A]
    (flow : List (String × List String))
    (outa : A → String → List (String × String) → Option String)
    (fuel : Nat) (root : String) (arts : List A) (b : A) (hb : b ∈ arts) :
    dlookup (runAll flow outa fuel root arts) b
      = some (runArtifact flow (outa b) fuel root) := by
  induction arts with
  | nil => simp at hb
  | cons a t ih =>
    by_cases hba : b = a
    · subst hba
      simp [runAll, dlookup]
    · have hbt : b ∈ t := by
        rcases List.mem_cons.mp hb with h | h
        · exact absurd h hba
        · exact h
      have : runAll flow outa fuel root (a :: t)
          = (a, runArtifact flow (outa a) fuel root)
            :: runAll flow outa fuel root t := by
        simp [runAll]
      rw [this]
      simp only [dlookup, if_neg hba]
      exact ih hbt

/-- C1 (amended): for every flow graph that is acyclic, witnessed by a rank
function increasing along its edges, the traversal dispatches the steps
reachable from the start step once per distinct path from the start step, and
the `previous_outputs` context passed at each dispatch contains exactly the
outputs of the ancestors along that path, in completion order: the dispatch
trace of the code-side `execute` equals the specification-side per-path
enumeration `specTrace`. The original claim (exactly one dispatch per
reachable step) fails for steps reachable along several paths, see the
counterexample. -/
theorem C1_trace_once_per_path (flow : List (String × List String))
    (out : String → List (String × String) → Option String)
    (rank : String → Nat) (hrank : edgeRank flow rank)
    (fuel : Nat) (root : String) :
    (runArtifact flow out fuel root).trace = specTrace flow out fuel [] root := by
  have h := (execute_foldl_spec flow out rank hrank fuel [root] [] ⟨[], []⟩
    [] rfl (by simp)).1
  simpa [runArtifact] using h

/-- C1 counterexample: the diamond flow `dflow` is acyclic and has the single
no-incoming-edge step `a`, yet step `d` (reachable from `a`) is dispatched
twice during the traversal of one artifact, refuting that every reachable step
is dispatched exactly once. -/
theorem C1_counterexample :
    edgeRank dflow drank ∧
    specNoIncomingSteps dflow = ["a"] ∧
    ((runArtifact dflow doutput 10 "a").trace.map TraceEntry.step).count "d"
      = 2 := by
  refine ⟨?_, ?_, ?_⟩
  · show ∀ pr ∈ dflow, ∀ b ∈ pr.2, drank pr.1 < drank b
    decide
  · decide
  · decide

/-- C1 witness: the amended statement evaluated on the concrete two-step line
flow. -/
theorem C1_witness :
    edgeRank lineFlow lineRank ∧
    (runArtifact lineFlow doutput 5 "a").trace
      = specTrace lineFlow doutput 5 [] "a" :=
  ⟨by show ∀ pr ∈ lineFlow, ∀ b ∈ pr.2, lineRank pr.1 < lineRank b
      decide,
   C1_trace_once_per_path lineFlow doutput lineRank
     (by show ∀ pr ∈ lineFlow, ∀ b ∈ pr.2, lineRank pr.1 < lineRank b
         decide) 5 "a"⟩

/-- C2 (code behavior at the failing input): the code performs no cycle check,
so with the cyclic flow graph mapping `a` to `[a]` the traversal starts and
step `a` is dispatched over and over (here five times with recursion budget
five); nothing fails at construction time, and the eventual RecursionError is
caught by the same per-branch handler as any step failure. The claim says
construction rejects the cycle before any dispatch. -/
theorem C2_cycle_dispatches :
    ((execute cycFlow doutput 5 "a" [] ⟨[], []⟩).trace.map TraceEntry.step)
      = ["a", "a", "a", "a", "a"] := by decide

/-- C3: failure isolation. Consider any point of an acyclic traversal: the
driver is about to run step `p` with path `prev`, whose accumulated context is
`acc`; `p` succeeds and its successor `f` (between the sibling blocks `ss1`
and `ss2`) fails. Then:
(1) every artifact in the batch still maps to exactly its own standalone
traversal, so every other traversal proceeds to completion unaffected;
(2) the dispatch trace below `p` is the dispatch of `p`, then the full
per-path traces of the earlier siblings `ss1`, then the single dispatch of `f`
with nothing of the subtree below `f` (only the remaining subtree under the
failed step is abandoned), then the full per-path traces of the later siblings
`ss2` (siblings dispatched after the failed one still run);
(3) the output of the already-completed step `p` is still present in the final
output map (completed outputs are not undone). -/
theorem C3_failure_isolation {A : Type} [DecidableEq A]
    (flow : List (String × List String))
    (outa : A → String → List (String × String) → Option String)
    (rank : String → Nat) (hrank : edgeRank flow rank)
    (p f o : String) (ss1 ss2 fsucc : List String)
    (fuel : Nat) (arts : List A) (a : A) (root : String)
    (prev : List String) (st : ExecState) (acc : List (String × String))
    (hI1 : prevOutputs st.outputs prev = acc)
    (hprev : ∀ q ∈ prev, rank q < rank p)
    (hp : dlookup flow p = some (ss1 ++ f :: ss2))
    (hf : dlookup flow f = some fsucc)
    (hop : outa a p acc = some o)
    (hof : outa a f (acc ++ [(p, o)]) = none) :
    (∀ b ∈ arts, dlookup (runAll flow outa (fuel + 2) root arts) b
        = some (runArtifact flow (outa b) (fuel + 2) root)) ∧
    (execute flow (outa a) (fuel + 2) p prev st).trace
      = st.trace ++ ⟨p, acc⟩ ::
          (ss1.flatMap (specTrace flow (outa a) (fuel + 1) (acc ++ [(p, o)]))
            ++ ⟨f, acc ++ [(p, o)]⟩ ::
              ss2.flatMap
                (specTrace flow (outa a) (fuel + 1) (acc ++ [(p, o)]))) ∧
    dlookup (execute flow (outa a) (fuel + 2) p prev st).outputs p
      = some o := by
  have hrank_succs : ∀ b ∈ ss1 ++ f :: ss2, rank p < rank b :=
    hrank (p, ss1 ++ f :: ss2) (dlookup_mem hp)
  have hneq : ∀ q ∈ prev, q ≠ p := by
    intro q hq e
    exact absurd (e ▸ hprev q hq) (lt_irrefl _)
  refine ⟨fun b hb => dlookup_runAll flow outa (fuel + 2) root arts b hb,
    ?_, ?_⟩
  · have h := (execute_foldl_spec flow (outa a) rank hrank (fuel + 2) [p] prev
      st acc hI1 (by
        intro q hq n hn
        have : n = p := by simpa using hn
        exact this ▸ hprev q hq)).1
    have htr : (execute flow (outa a) (fuel + 2) p prev st).trace
        = st.trace ++ specTrace flow (outa a) (fuel + 2) acc p := by
      simpa using h
    rw [htr]
    simp only [specTrace_succ, hp, hop, List.flatMap_append,
      List.flatMap_cons, hf, hof]
    simp
  · have hstep : execute flow (outa a) (fuel + 2) p prev st
        = (ss1 ++ f :: ss2).foldl
            (fun s nxt => execute flow (outa a) (fuel + 1) nxt (prev ++ [p]) s)
            { outputs := setKey st.outputs p o,
              trace := st.trace ++ [⟨p, acc⟩] } := by
      show execute flow (outa a) (fuel + 1 + 1) p prev st = _
      rw [execute_succ, hp, hI1, hop]
    have hI2b : ∀ q ∈ prev ++ [p], ∀ n ∈ ss1 ++ f :: ss2,
        rank q < rank n := by
      intro q hq n hn
      rcases List.mem_append.mp hq with h1 | h1
      · exact lt_trans (hprev q h1) (hrank_succs n hn)
      · have : q = p := by simpa using h1
        exact this ▸ hrank_succs n hn
    have hkeys : p ∉ acc.map Prod.fst := by
      intro hmem
      rw [← hI1, prevOutputs_eq_aux] at hmem
      rcases mem_keys_prevOutputsAux _ _ _ _ hmem with h3 | h3
      · simp at h3
      · exact absurd (hprev p h3) (lt_irrefl _)
    have hI1b : prevOutputs
        (ExecState.mk (setKey st.outputs p o)
          (st.trace ++ [⟨p, acc⟩])).outputs (prev ++ [p])
        = acc ++ [(p, o)] := by
      show prevOutputs (setKey st.outputs p o) (prev ++ [p]) = acc ++ [(p, o)]
      rw [prevOutputs_eq_aux, prevOutputsAux_append, dlookup_setKey_self]
      show setKey (prevOutputsAux (setKey st.outputs p o) [] prev) p o
        = acc ++ [(p, o)]
      rw [prevOutputsAux_congr (setKey st.outputs p o) st.outputs prev
        (fun q hq => dlookup_setKey_ne _ _ _ _ (hneq q hq)) []]
      rw [← prevOutputs_eq_aux, hI1]
      exact setKey_of_not_mem _ _ _ hkeys
    have hpres := (execute_foldl_spec flow (outa a) rank hrank (fuel + 1)
      (ss1 ++ f :: ss2) (prev ++ [p])
      { outputs := setKey st.outputs p o, trace := st.trace ++ [⟨p, acc⟩] }
      (acc ++ [(p, o)]) hI1b hI2b).2 p (fun n hn => hrank_succs n hn)
    rw [hstep, hpres]
    exact dlookup_setKey_self _ _ _

/-- C3 witness: the failure-isolation statement evaluated on the concrete
fan-out flow with two artifacts, where step `f` fails for artifact `0` only,
at the start of the traversal (empty path, fresh state). -/
theorem C3_witness :
    dlookup c3flow "p" = some ["s1", "f", "s2"] ∧
    dlookup c3flow "f" = some ["c"] ∧
    c3outa 0 "p" [] = some "p" ∧
    c3outa 0 "f" [("p", "p")] = none ∧
    ((∀ b ∈ [0, 1], dlookup (runAll c3flow c3outa 5 "p" [0, 1]) b
        = some (runArtifact c3flow (c3outa b) 5 "p")) ∧
      (execute c3flow (c3outa 0) 5 "p" [] ⟨[], []⟩).trace
        = ⟨"p", []⟩ ::
            (["s1"].flatMap (specTrace c3flow (c3outa 0) 4 [("p", "p")])
              ++ ⟨"f", [("p", "p")]⟩ ::
                ["s2"].flatMap (specTrace c3flow (c3outa 0) 4 [("p", "p")])) ∧
      dlookup (execute c3flow (c3outa 0) 5 "p" [] ⟨[], []⟩).outputs "p"
        = some "p") :=
  ⟨by decide, by decide, by decide, by decide,
   C3_failure_isolation c3flow c3outa c3rank
     (by show ∀ pr ∈ c3flow, ∀ b ∈ pr.2, c3rank pr.1 < c3rank b
         decide)
     "p" "f" "p" ["s1"] ["s2"] ["c"] 3 [0, 1] 0 "p" [] ⟨[], []⟩ []
     rfl (by simp) (by decide) (by decide) (by decide) (by decide)⟩

/-- C5 counterexample: in `flow5` the unique no-incoming-edge step is `a`, yet
the code starts the traversal at the first key `b` (and the traversal runs, no
configuration error); in `flowM` there are two no-incoming-edge steps, which
the claim says must be rejected, yet the code starts at the first key `a` and
the traversal dispatches steps. -/
theorem C5_counterexample :
    specNoIncomingSteps flow5 = ["a"] ∧
    initial_agent flow5 = some "b" ∧
    (runArtifact flow5 doutput 5 "b").trace = [⟨"b", []⟩] ∧
    specNoIncomingSteps flowM = ["a", "c"] ∧
    initial_agent flowM = some "a" ∧
    (runArtifact flowM doutput 5 "a").trace ≠ [] := by decide

/-- C5 (amended): when no explicit root annotation exists (the code has none),
the traversal root is simply the first key of the flow mapping; in-degrees are
never examined, so no flow graph is rejected over its root set, and the first
key is dispatched first unconditionally. -/
theorem C5_first_key_is_root (k : String) (v : List String)
    (rest : List (String × List String))
    (out : String → List (String × String) → Option String) (fuel : Nat) :
    initial_agent ((k, v) :: rest) = some k ∧
    ((execute ((k, v) :: rest) out (fuel + 1) k [] ⟨[], []⟩).trace).head?
      = some ⟨k, []⟩ := by
  constructor
  · rfl
  · have hdl : dlookup ((k, v) :: rest) k = some v := by simp [dlookup]
    have hctx : prevOutputs (ExecState.mk [] []).outputs [] = [] := rfl
    rw [execute_succ]
    simp only [hdl, hctx]
    cases hout : out k [] with
    | none => rfl
    | some o =>
      simp only [hout]
      obtain ⟨t, ht⟩ := foldl_execute_trace_extends ((k, v) :: rest) out fuel
        v ([] ++ [k]) ⟨setKey [] k o, [] ++ [⟨k, []⟩]⟩
      show ((v.foldl
          (fun s nxt => execute ((k, v) :: rest) out fuel nxt ([] ++ [k]) s)
          (ExecState.mk (setKey [] k o) ([] ++ [⟨k, []⟩]))).trace).head?
        = some ⟨k, []⟩
      rw [ht]
      rfl

/-- C8 (amended): successor names are never validated at construction time;
instead, when the traversal reaches a step name that is not a key of the flow
mapping, the lookup in the agents dictionary raises KeyError, the per-branch
handler catches it, and that branch alone is abandoned: nothing is dispatched
for the unknown name and the traversal state is returned unchanged. -/
theorem C8_unknown_name_not_dispatched (flow : List (String × List String))
    (out : String → List (String × String) → Option String)
    (fuel : Nat) (s : String) (prev : List String) (st : ExecState)
    (h : dlookup flow s = none) :
    execute flow out fuel s prev st = st := by
  cases fuel with
  | zero => rfl
  | succ fuel => rw [execute_succ, h]

/-- C8 witness: the unknown-successor skip evaluated at the concrete name
`zzz`, which `flow8` references but never defines. -/
theorem C8_witness :
    dlookup flow8 "zzz" = none ∧
    execute flow8 doutput 7 "zzz" ["a"] ⟨[], []⟩ = ⟨[], []⟩ :=
  ⟨by decide,
   C8_unknown_name_not_dispatched flow8 doutput 7 "zzz" ["a"] ⟨[], []⟩
     (by decide)⟩

/-- C8 counterexample: `flow8` references the unknown step name `zzz`, yet the
run is not rejected before dispatch: step `a` is dispatched and completes, and
the unknown successor is skipped silently at traversal time. -/
theorem C8_counterexample :
    (runArtifact flow8 doutput 10 "a").trace = [⟨"a", []⟩] ∧
    (runArtifact flow8 doutput 10 "a").outputs = [("a", "a")] := by decide

/-- C6: the output file name is the explicit `output_file` setting when
present; otherwise, when `output_file_suffix` is present, the stem of the
input artifact concatenated with the suffix, independent of the step name;
otherwise the step name followed by the default extension `.txt`. -/
theorem C6_output_file_name (name : String) (config : List (String × String))
    (input_path : String) :
    (∀ v, dlookup config "output_file" = some v →
        get_output_file_name name config input_path = v) ∧
    (dlookup config "output_file" = none →
      ((∀ sfx, dlookup config "output_file_suffix" = some sfx →
          get_output_file_name name config input_path
            = pyStem input_path ++ sfx) ∧
        (dlookup config "output_file_suffix" = none →
          get_output_file_name name config input_path = name ++ ".txt"))) := by
  refine ⟨?_, ?_⟩
  · intro v hv
    unfold get_output_file_name
    rw [hv]
  · intro h0
    refine ⟨?_, ?_⟩
    · intro sfx hs
      unfold get_output_file_name
      rw [h0, hs]
    · intro hs
      unfold get_output_file_name
      rw [h0, hs]

/-- C6 witness: with suffix `_v2` and input artifact `report.md` the output
file is named `report_v2`, whatever the step is called. -/
theorem C6_witness :
    dlookup [("output_file_suffix", "_v2")] "output_file" = none ∧
    dlookup [("output_file_suffix", "_v2")] "output_file_suffix"
      = some "_v2" ∧
    get_output_file_name "stepX" [("output_file_suffix", "_v2")] "report.md"
      = "report_v2" := by
  refine ⟨by decide, by decide, ?_⟩
  rw [((C6_output_file_name "stepX" [("output_file_suffix", "_v2")]
    "report.md").2 (by decide)).1 "_v2" (by decide)]
  decide

/-- C7: in the merged step settings, every key present in the override maps to
the override value (override strictly wins), and every key absent from the
override maps to the default value. -/
theorem C7_merge_override_wins {α : Type} (d o : List (String × α))
    (k : String) (hnd : (o.map Prod.fst).Nodup) :
    (∀ v, dlookup o k = some v → dlookup (pyMerge d o) k = some v) ∧
    (dlookup o k = none → dlookup (pyMerge d o) k = dlookup d k) :=
  ⟨fun v hv => dlookup_pyMerge_of_some d o k v hnd hv,
   fun h => dlookup_pyMerge_of_none d o k h⟩

/-- C7 witness: the merge statement evaluated on a concrete default map and a
concrete override map, for a colliding key and a default-only key. -/
theorem C7_witness :
    (o7.map Prod.fst).Nodup ∧
    dlookup (pyMerge d7 o7) "model" = some "gemini" ∧
    dlookup (pyMerge d7 o7) "temperature" = some "0.1" := by
  refine ⟨by decide,
    (C7_merge_override_wins d7 o7 "model" (by decide)).1 "gemini" (by decide),
    ?_⟩
  rw [(C7_merge_override_wins d7 o7 "temperature" (by decide)).2 (by decide)]
  decide

/-- C9: constructing `Agent(name, config)` with a plain settings dictionary
always raises AttributeError, because `Agent.__init__` forwards the dictionary
into the `config_loader` parameter of `BaseAgent.__init__`, which calls
`config_loader.get_default_config()` on it; consequently `run_orchestration`
with any non-empty flow graph fails inside its agent-initialization loop with
that AttributeError, before any input artifact is processed. -/
theorem C9_agent_init_raises (name : String) (entries : List (String × Val))
    (k : String) (v : List String) (rest : List (String × List String))
    (dc ac : List (String × Val))
    (outa : String → String → List (String × String) → Option String)
    (fuel : Nat) (arts : List String) :
    Agent_init name (.dict entries)
      = .error (.attributeError "get_default_config") ∧
    run_orchestration ((k, v) :: rest) dc ac outa fuel arts
      = .error (.attributeError "get_default_config") :=
  ⟨rfl, rfl⟩

/-- Every call of `_load_configs` reads at least one file. -/
theorem load_configs_reads_ne_nil (fs : String → FileResult)
    (cp : Option ConfigPaths) : (load_configs fs cp).2 ≠ [] := by
  simp only [load_configs]
  cases load_config_file fs ((cp.getD default_paths).default_config) with
  | error e => simp
  | ok d =>
    cases load_config_file fs ((cp.getD default_paths).agent_config) with
    | error e => simp
    | ok a =>
      cases load_config_file fs ((cp.getD default_paths).flow_config) with
      | error e => simp
      | ok f => simp

/-- C10: once a first `ConfigLoader(paths1)` call has succeeded, every later
`ConfigLoader(paths2)` call, for any storage state and any `paths2` (equal,
different or omitted), returns the identical cached instance still holding the
configurations loaded from `paths1` and performs no file reads; only after the
cached instance is reset to `None` does a call read files again. -/
theorem C10_singleton_cached (fs1 fs2 : String → FileResult)
    (cp1 cp2 : Option ConfigPaths) (cfg : ConfigData)
    (h : (ConfigLoader_new fs1 none cp1).1 = .ok (.loaded cfg)) :
    ConfigLoader_new fs2 (ConfigLoader_new fs1 none cp1).2.1 cp2
      = (.ok (.loaded cfg), (ConfigLoader_new fs1 none cp1).2.1, []) ∧
    (ConfigLoader_new fs1 none cp1).2.1 = some (.loaded cfg) ∧
    (ConfigLoader_new fs2 none cp2).2.2 ≠ [] := by
  have hst : (ConfigLoader_new fs1 none cp1).2.1 = some (.loaded cfg) := by
    cases hl : load_configs fs1 cp1 with
    | mk res reads =>
      cases res with
      | ok c =>
        have h1 : ConfigLoader_new fs1 none cp1
            = (.ok (.loaded c), some (.loaded c), reads) := by
          unfold ConfigLoader_new
          rw [hl]
        rw [h1] at h
        simp only [Except.ok.injEq, CLInst.loaded.injEq] at h
        rw [h1, h]
      | error e =>
        have h1 : ConfigLoader_new fs1 none cp1
            = (.error e, some .loadFailed, reads) := by
          unfold ConfigLoader_new
          rw [hl]
        rw [h1] at h
        simp at h
  refine ⟨?_, hst, ?_⟩
  · rw [hst]
    rfl
  · have hr := load_configs_reads_ne_nil fs2 cp2
    cases hl : load_configs fs2 cp2 with
    | mk res reads =>
      rw [hl] at hr
      have h2 : (ConfigLoader_new fs2 none cp2).2.2 = reads := by
        unfold ConfigLoader_new
        rw [hl]
        cases res <;> rfl
      rw [h2]
      simpa using hr

/-- C10 witness: a successful first load from storage where every file parses,
then a second call while every file is missing from storage: the cached
instance is returned, nothing is read; a call after a reset reads again. -/
theorem C10_witness :
    (ConfigLoader_new fsOkAll none none).1
      = .ok (.loaded ⟨.s "v", .s "v", .s "v"⟩) ∧
    (ConfigLoader_new fsMissingAll (ConfigLoader_new fsOkAll none none).2.1
        (some default_paths)
      = (.ok (.loaded ⟨.s "v", .s "v", .s "v"⟩),
         (ConfigLoader_new fsOkAll none none).2.1, []) ∧
    (ConfigLoader_new fsOkAll none none).2.1
      = some (.loaded ⟨.s "v", .s "v", .s "v"⟩) ∧
    (ConfigLoader_new fsMissingAll none (some default_paths)).2.2 ≠ []) :=
  ⟨rfl,
   C10_singleton_cached fsOkAll fsMissingAll none (some default_paths)
     ⟨.s "v", .s "v", .s "v"⟩ rfl⟩


/-! Lemmas for the fenced-block extraction, parametric in the word-character
table `w`. -/

theorem startsWithTicks_cons_false (c : Char) (l : List Char)
    (hc : c ≠ tick) : startsWithTicks (c :: l) = false := by
  have hb : (c == tick) = false := beq_eq_false_iff_ne.mpr hc
  rcases l with _ | ⟨b, _ | ⟨d, t⟩⟩
  · rfl
  · rfl
  · simp [startsWithTicks, hb]

theorem matchFenceAt_none_of_not_ticks (w : Char → Bool) (s : List Char)
    (h : startsWithTicks s = false) : matchFenceAt w s = none := by
  rcases s with _ | ⟨a, _ | ⟨b, _ | ⟨c, rest⟩⟩⟩
  · rfl
  · rfl
  · rfl
  · simp only [startsWithTicks] at h
    simp [matchFenceAt, h]

theorem searchFence_append_no_tick (w : Char → Bool) (pre t : List Char)
    (h : ∀ c ∈ pre, c ≠ tick) :
    searchFence w (pre ++ t) = searchFence w t := by
  induction pre with
  | nil => rfl
  | cons c pre2 ih =>
    have hc : c ≠ tick := h c (by simp)
    have h2 : ∀ x ∈ pre2, x ≠ tick := fun x hx => h x (by simp [hx])
    have hm : matchFenceAt w (c :: (pre2 ++ t)) = none :=
      matchFenceAt_none_of_not_ticks w _ (startsWithTicks_cons_false c _ hc)
    show searchFence w (c :: (pre2 ++ t)) = searchFence w t
    rw [searchFence, hm]
    exact ih h2

theorem dropWhile_append_all {p : Char → Bool} (l m : List Char)
    (h : l.all p = true) : (l ++ m).dropWhile p = m.dropWhile p := by
  induction l with
  | nil => rfl
  | cons a t ih =>
    simp only [List.all_cons, Bool.and_eq_true] at h
    simp [List.dropWhile_cons, h.1, ih h.2]

theorem matchFenceAt_fence (w : Char → Bool) (hw : w '\n' = false)
    (lang body : List Char) (hlang : lang.all w = true) :
    matchFenceAt w (tick :: tick :: tick :: (lang ++ '\n' :: body))
      = (splitTicks body).map Prod.fst := by
  have hdrop : (lang ++ '\n' :: body).dropWhile w = '\n' :: body := by
    rw [dropWhile_append_all _ _ hlang]
    simp [List.dropWhile_cons, hw]
  simp [matchFenceAt, hdrop]

theorem hasTicks_cons_false (c : Char) (l : List Char)
    (h : hasTicks (c :: l) = false) :
    startsWithTicks (c :: l) = false ∧ hasTicks l = false := by
  rw [hasTicks] at h
  exact Bool.or_eq_false_iff.mp h

theorem startsWithTicks_append_nl (c : Char) (P2 X : List Char)
    (h : startsWithTicks (c :: P2) = false) :
    startsWithTicks (c :: (P2 ++ '\n' :: X)) = false := by
  have hnl : ('\n' == tick) = false := by decide
  rcases P2 with _ | ⟨d, _ | ⟨e, t⟩⟩
  · rcases X with _ | ⟨x, xs⟩
    · rfl
    · simp [startsWithTicks, hnl]
  · simp [startsWithTicks, hnl]
  · simp only [startsWithTicks] at h
    simp only [List.cons_append, startsWithTicks]
    exact h

theorem splitTicks_closing (post : List Char) :
    ∀ P : List Char, hasTicks P = false →
      splitTicks (P ++ '\n' :: tick :: tick :: tick :: post)
        = some (P ++ ['\n'], post) := by
  intro P
  induction P with
  | nil =>
    intro h
    have hnl : ('\n' == tick) = false := by decide
    have htt : (tick == tick) = true := by decide
    show splitTicks ('\n' :: tick :: tick :: tick :: post) = _
    rw [splitTicks, startsWithTicks]
    simp only [hnl, Bool.false_and]
    rw [splitTicks, startsWithTicks]
    simp [htt]
  | cons c P2 ih =>
    intro h
    obtain ⟨h1, h2⟩ := hasTicks_cons_false c P2 h
    have hsw : startsWithTicks (c :: (P2 ++ '\n' :: tick :: tick :: tick :: post))
        = false := startsWithTicks_append_nl c P2 _ h1
    show splitTicks (c :: (P2 ++ '\n' :: tick :: tick :: tick :: post)) = _
    rw [splitTicks]
    simp only [hsw, Bool.false_eq_true, if_false]
    rw [ih h2]
    rfl

theorem dropWhile_append_of_eq_nil {p : Char → Bool} (l m : List Char)
    (h : l.dropWhile p = []) : (l ++ m).dropWhile p = m.dropWhile p := by
  induction l with
  | nil => rfl
  | cons a t ih =>
    cases hpa : p a with
    | true =>
      rw [List.dropWhile_cons_of_pos hpa] at h
      simp [List.dropWhile_cons, hpa, ih h]
    | false =>
      rw [List.dropWhile_cons_of_neg (by simp [hpa])] at h
      exact absurd h (by simp)

theorem dropWhile_append_of_ne_nil {p : Char → Bool} (l m : List Char)
    (h : l.dropWhile p ≠ []) : (l ++ m).dropWhile p = l.dropWhile p ++ m := by
  induction l with
  | nil => exact absurd rfl h
  | cons a t ih =>
    cases hpa : p a with
    | true =>
      rw [List.dropWhile_cons_of_pos hpa] at h
      simp [List.dropWhile_cons, hpa, ih h]
    | false =>
      simp [List.dropWhile_cons, hpa]

theorem pyStrip_append_ws (l : List Char) (c : Char)
    (hc : isPySpace c = true) : pyStrip (l ++ [c]) = pyStrip l := by
  unfold pyStrip
  by_cases h : l.dropWhile isPySpace = []
  · rw [dropWhile_append_of_eq_nil _ _ h, h]
    simp [List.dropWhile_cons, hc]
  · rw [dropWhile_append_of_ne_nil _ _ h]
    rw [List.reverse_append]
    simp [List.dropWhile_cons, hc]

theorem splitTicks_decomp : ∀ (l p r : List Char), splitTicks l = some (p, r) →
    l = p ++ tick :: tick :: tick :: r := by
  intro l
  induction l with
  | nil =>
    intro p r h
    exact absurd h (by simp [splitTicks])
  | cons c cs ih =>
    intro p r h
    by_cases hsw : startsWithTicks (c :: cs) = true
    · rw [splitTicks] at h
      simp only [hsw, if_true] at h
      simp only [Option.some.injEq, Prod.mk.injEq] at h
      obtain ⟨hp, hr⟩ := h
      subst hp
      subst hr
      rcases cs with _ | ⟨b, _ | ⟨d, t⟩⟩
      · exact absurd hsw (by simp [startsWithTicks])
      · exact absurd hsw (by simp [startsWithTicks])
      · simp only [startsWithTicks, Bool.and_eq_true, beq_iff_eq] at hsw
        obtain ⟨⟨hc, hb⟩, hd⟩ := hsw
        subst hc
        subst hb
        subst hd
        simp
    · have hsw2 : startsWithTicks (c :: cs) = false := by
        simpa using hsw
      rw [splitTicks] at h
      simp only [hsw2, Bool.false_eq_true, if_false] at h
      cases hs : splitTicks cs with
      | none =>
        rw [hs] at h
        exact absurd h (by simp)
      | some pr =>
        obtain ⟨p2, r2⟩ := pr
        rw [hs] at h
        simp only [Option.some.injEq, Prod.mk.injEq] at h
        obtain ⟨hp, hr⟩ := h
        subst hp
        subst hr
        rw [show cs = p2 ++ tick :: tick :: tick :: r2 from ih p2 r2 hs]
        rfl

theorem matchFenceAt_some_decomp (w : Char → Bool) (s P : List Char)
    (h : matchFenceAt w s = some P) :
    ∃ lang post, lang.all w = true ∧
      s = tick :: tick :: tick ::
        (lang ++ '\n' :: (P ++ tick :: tick :: tick :: post)) := by
  rcases s with _ | ⟨a, _ | ⟨b, _ | ⟨c, rest⟩⟩⟩
  · exact absurd h (by simp [matchFenceAt])
  · exact absurd h (by simp [matchFenceAt])
  · exact absurd h (by simp [matchFenceAt])
  · by_cases hg : (a == tick && b == tick && c == tick) = true
    · have hg2 := hg
      simp only [Bool.and_eq_true, beq_iff_eq] at hg2
      obtain ⟨⟨ha, hb⟩, hc⟩ := hg2
      subst ha
      subst hb
      subst hc
      simp only [matchFenceAt, hg, if_true] at h
      cases hdw : rest.dropWhile w with
      | nil =>
        rw [hdw] at h
        simp at h
      | cons d body =>
        rw [hdw] at h
        have h2 : (if (d == '\n') = true
            then Option.map Prod.fst (splitTicks body) else none) = some P := h
        by_cases hd : d = '\n'
        · subst hd
          rw [if_pos (beq_self_eq_true '\n')] at h2
          cases hsp : splitTicks body with
          | none =>
            rw [hsp] at h2
            simp at h2
          | some pr =>
            obtain ⟨p2, r2⟩ := pr
            rw [hsp] at h2
            simp at h2
            subst h2
            refine ⟨rest.takeWhile w, r2, List.all_takeWhile, ?_⟩
            rw [show body = p2 ++ tick :: tick :: tick :: r2 from
              splitTicks_decomp body p2 r2 hsp] at hdw
            have hr2 : rest = rest.takeWhile w
                ++ '\n' :: (p2 ++ tick :: tick :: tick :: r2) := by
              conv_lhs => rw [← List.takeWhile_append_dropWhile w rest]
              rw [hdw]
            rw [← hr2]
        · have hd2 : (d == '\n') = false := beq_eq_false_iff_ne.mpr hd
          rw [if_neg (by simp [hd2])] at h2
          exact absurd h2 (by simp)
    · have hg2 : (a == tick && b == tick && c == tick) = false := by
        simpa using hg
      simp only [matchFenceAt, hg2, Bool.false_eq_true, if_false] at h
      exact absurd h (by simp)

theorem searchFence_some_decomp (w : Char → Bool) : ∀ (text P : List Char),
    searchFence w text = some P →
    ∃ pre lang post, lang.all w = true ∧
      text = pre ++ tick :: tick :: tick ::
        (lang ++ '\n' :: (P ++ tick :: tick :: tick :: post)) := by
  intro text
  induction text with
  | nil =>
    intro P h
    exact absurd h (by simp [searchFence])
  | cons c cs ih =>
    intro P h
    rw [searchFence] at h
    cases hm : matchFenceAt w (c :: cs) with
    | some Q =>
      rw [hm] at h
      simp only [Option.some.injEq] at h
      subst h
      obtain ⟨lang, post, hl, hs⟩ := matchFenceAt_some_decomp w _ _ hm
      exact ⟨[], lang, post, hl, by rw [← hs]; rfl⟩
    | none =>
      rw [hm] at h
      obtain ⟨pre, lang, post, hl, hs⟩ := ih P h
      refine ⟨c :: pre, lang, post, hl, ?_⟩
      rw [show cs = pre ++ tick :: tick :: tick ::
        (lang ++ '\n' :: (P ++ tick :: tick :: tick :: post)) from hs]
      rfl

theorem tick_mem_of_containsFence (w : Char → Bool) (text : List Char)
    (h : containsFence w text) : tick ∈ text := by
  obtain ⟨pre, lang, payload, post, hl, hs⟩ := h
  rw [hs]
  simp

/-- C4: for every word-character table `w` under which the newline is not a
word character (which is true of the Unicode `\w` table of Python), applied to
a generated text containing one fenced block (three backticks, an optional
language tag of word characters, a newline, the payload on its own lines,
three closing backticks), `extract_code_block` returns the payload with
leading and trailing whitespace stripped, whatever follows the block; applied
to a text containing no fenced block, it raises ValueError (modelled as
`none`), with no fallback to the raw text. The text before the block is
backtick-free and the payload contains no three consecutive backticks, which
is what makes the block the only one there; the whitespace table of
`str.strip()` is embedded in full. -/
theorem C4_extract_code_block :
    (∀ w : Char → Bool, w '\n' = false →
      ∀ pre lang payload post : List Char,
      (∀ c ∈ pre, c ≠ tick) →
      lang.all w = true →
      hasTicks payload = false →
      extract_code_block w (String.mk (pre ++ tick :: tick :: tick ::
          (lang ++ '\n' :: (payload ++ '\n' :: tick :: tick :: tick :: post))))
        = some (String.mk (pyStrip payload))) ∧
    (∀ (w : Char → Bool) (text : List Char), ¬ containsFence w text →
      extract_code_block w (String.mk text) = none) := by
  constructor
  · intro w hw pre lang payload post hpre hlang hpay
    show (searchFence w (pre ++ tick :: tick :: tick ::
        (lang ++ '\n' :: (payload ++ '\n' :: tick :: tick :: tick :: post)))).map
        (fun p => String.mk (pyStrip p))
      = some (String.mk (pyStrip payload))
    rw [searchFence_append_no_tick w _ _ hpre]
    have hmatch : matchFenceAt w (tick :: tick :: tick ::
        (lang ++ '\n' :: (payload ++ '\n' :: tick :: tick :: tick :: post)))
        = some (payload ++ ['\n']) := by
      rw [matchFenceAt_fence w hw _ _ hlang,
        splitTicks_closing post payload hpay]
      rfl
    rw [searchFence, hmatch]
    show some (String.mk (pyStrip (payload ++ ['\n'])))
      = some (String.mk (pyStrip payload))
    rw [pyStrip_append_ws payload '\n' (by decide)]
  · intro w text hnf
    show (searchFence w text).map (fun p => String.mk (pyStrip p)) = none
    cases hs : searchFence w text with
    | none => rfl
    | some P =>
      obtain ⟨pre, lang, post, hl, hdec⟩ := searchFence_some_decomp w text P hs
      exact absurd ⟨pre, lang, P, post, hl, hdec⟩ hnf

/-- C4 witness: extraction evaluated at a concrete word-character table
containing the non-ASCII letter `é`, on a concrete text whose one fenced block
is tagged `é`, and on a concrete text with no fenced block at all. -/
theorem C4_witness :
    wordE '\n' = false ∧
    (∀ c ∈ ("x ".data : List Char), c ≠ tick) ∧
    ("é".data.all wordE = true) ∧
    (hasTicks "hi there".data = false) ∧
    extract_code_block wordE (String.mk ("x ".data ++ tick :: tick :: tick ::
        ("é".data ++ '\n' ::
          ("hi there".data ++ '\n' :: tick :: tick :: tick :: "!".data))))
      = some (String.mk (pyStrip "hi there".data)) ∧
    ¬ containsFence wordE "hello".data ∧
    extract_code_block wordE (String.mk "hello".data) = none := by
  have hnf : ¬ containsFence wordE "hello".data := fun h =>
    absurd (tick_mem_of_containsFence wordE _ h) (by decide)
  refine ⟨by decide, by decide, by decide, by decide, ?_, hnf, ?_⟩
  · exact C4_extract_code_block.1 wordE (by decide) "x ".data "é".data
      "hi there".data "!".data (by decide) (by decide) (by decide)
  · exact C4_extract_code_block.2 wordE "hello".data hnf
